import Mathlib

/-!
Verification of the colab-assist repository (src/colab_assist/colab_assist.py and
src/colab_utils/colab_utils.py) against its natural-language specification.

Strings are modelled as `List Char`.  Side effects (subprocess spawns, prints,
filesystem operations, host-platform API calls) are modelled as explicit event
traces.  Results of external calls (subprocess outcomes, HTTP responses, Colab
Secrets, getpass input) are supplied through environment records, so every
definition is an executable function of its inputs.

The regular expression in `_parse_package_spec` is embedded via a small regex
AST together with a backtracking matcher that returns the list of possible
(captures, remaining-input) outcomes in Python backtracking priority order;
`re.fullmatch` is the first outcome whose remaining input is empty.
-/

/-! ### Python-semantics helpers -/

/-- Truthiness of a Python `str | None` value: `None` and the empty string are falsy. -/
def pyTruthyO (a : Option (List Char)) : Bool :=
  match a with
  | none => false
  | some s => !s.isEmpty

/-- Python `a or b` for `a : str | None` with a string fallback value. -/
def pyOrD (a : Option (List Char)) (b : List Char) : List Char :=
  match a with
  | none => b
  | some s => if s.isEmpty then b else s

/-- Python `a or b` where both operands are `str | None`. -/
def pyOrO (a b : Option (List Char)) : Option (List Char) :=
  match a with
  | none => b
  | some s => if s.isEmpty then b else some s

/-- Model of `os.path.join(a, b)` for `a` ending in a slash: an absolute `b`
replaces `a`, otherwise the two are concatenated (no extra separator is added
because `a` already ends in a path separator). -/
def pyJoin (a b : List Char) : List Char :=
  match b with
  | '/' :: _ => b
  | _ => a ++ b

/-- Model of Python `s.split(sep)` for a single-character separator. -/
def splitOnChar (sep : Char) : List Char → List (List Char)
  | [] => [[]]
  | c :: cs =>
    let r := splitOnChar sep cs
    if c = sep then [] :: r
    else
      match r with
      | [] => [[c]]
      | h :: t => (c :: h) :: t

/-! ### Character classes of the `_parse_package_spec` pattern

Python `\w` is modelled over ASCII (letter, digit, or underscore); all claims
range over ASCII inputs. -/

/-- ASCII model of the regex class `\w`. -/
def wordChar (c : Char) : Bool := c.isAlphanum || c = '_'

/-- The regex class `[-%+.:\w]` (characters allowed in the auth component). -/
def authChar (c : Char) : Bool :=
  c = '-' || c = '%' || c = '+' || c = '.' || c = ':' || wordChar c

/-- The regex class `[-a-zA-Z0-9]` (first label of a host domain name). -/
def domChar (c : Char) : Bool := c = '-' || c.isAlphanum

/-- The regex class `[-.a-zA-Z0-9]` (rest of a host domain name). -/
def domDotChar (c : Char) : Bool := c = '-' || c = '.' || c.isAlphanum

/-- The regex class `[-\w]` (repository owner). -/
def ownerChar (c : Char) : Bool := c = '-' || wordChar c

/-- The regex class `[-.\w]` (repository name). -/
def repoChar (c : Char) : Bool := c = '-' || c = '.' || wordChar c

/-- The regex class `[-./\w]` (Git ref). -/
def refChar (c : Char) : Bool := c = '-' || c = '.' || c = '/' || wordChar c

/-! ### A regex AST and a Python-style backtracking matcher

Repetition (`star`, `plus`) only ever occurs applied to a character class in
the pattern under study, so the AST builds that in; this makes the matcher
structurally terminating. -/

/-- Regex abstract syntax: characters classes, sequencing, prioritized
alternation, option, greedy class repetition, and numbered capture groups. -/
inductive Regex where
  | eps : Regex
  | ch (p : Char → Bool) : Regex
  | seq (a b : Regex) : Regex
  | alt (a b : Regex) : Regex
  | opt (a : Regex) : Regex
  | star (p : Char → Bool) : Regex
  | plus (p : Char → Bool) : Regex
  | group (i : Nat) (a : Regex) : Regex

/-- Capture environment: group number to captured substring (`none` when the
group did not participate in the match). -/
def Caps : Type := Nat → Option (List Char)

/-- No group has matched yet. -/
def noCaps : Caps := fun _ => none

/-- Record the capture of group `i`. -/
def setCap (k : Caps) (i : Nat) (v : List Char) : Caps :=
  fun j => if j = i then some v else k j

/-- Remaining inputs after a greedy `p*`, longest consumed first. -/
def starTails (p : Char → Bool) : List Char → List (List Char)
  | [] => [[]]
  | c :: cs => if p c then starTails p cs ++ [c :: cs] else [c :: cs]

/-- Remaining inputs after a greedy `p+`, longest consumed first. -/
def plusTails (p : Char → Bool) : List Char → List (List Char)
  | [] => []
  | c :: cs => if p c then starTails p cs else []

/-- All outcomes of matching a regex against a prefix of the input, as
(captures, remaining input) pairs in Python backtracking priority order. -/
def Regex.run : Regex → List Char → Caps → List (Caps × List Char)
  | .eps, cs, k => [(k, cs)]
  | .ch _, [], _ => []
  | .ch p, c :: cs, k => if p c then [(k, cs)] else []
  | .seq a b, cs, k => (a.run cs k).flatMap (fun x => b.run x.2 x.1)
  | .alt a b, cs, k => a.run cs k ++ b.run cs k
  | .opt a, cs, k => a.run cs k ++ [(k, cs)]
  | .star p, cs, k => (starTails p cs).map (fun r => (k, r))
  | .plus p, cs, k => (plusTails p cs).map (fun r => (k, r))
  | .group i a, cs, k =>
    (a.run cs k).map (fun x => (setCap x.1 i (cs.take (cs.length - x.2.length)), x.2))

/-- First outcome that consumed the whole input, if any. -/
def firstFull : List (Caps × List Char) → Option Caps
  | [] => none
  | (k, r) :: t => if r.isEmpty then some k else firstFull t

/-- Model of `re.fullmatch`: the first complete match in backtracking order. -/
def fullmatch (r : Regex) (cs : List Char) : Option Caps :=
  firstFull (r.run cs noCaps)

/-- A literal character, as a regex. -/
def lit (c : Char) : Regex := .ch (fun d => d = c)

/-- A two-letter literal word, as a regex. -/
def word2 (a b : Char) : Regex := .seq (lit a) (lit b)

/-! ### Event traces and subprocess outcomes -/

/-- Observable side effects of the helper functions. -/
inductive Ev where
  | spawn (argv : List (List Char)) : Ev
  | spawnShell (cmd : List Char) : Ev
  | printEv (s : List Char) : Ev
  | rmtreeEv (path : List Char) (ignoreErrors : Bool) : Ev
  | driveMount (mountpoint : List Char) (forceRemount : Bool) : Ev
  | flushAndUnmount : Ev
  | runtimeUnassign : Ev
  | saveState : Ev
  | loadState : Ev
  | updateUvState : Ev
  | askExit : Ev
  | writeFile (path : List Char) (chunks : List (List Nat)) : Ev
  deriving DecidableEq

/-- Outcome of one `subprocess.run` call: either `TimeoutExpired` (with the
printed exception text) or completion with a return code and captured stderr. -/
inductive RunRes where
  | timeoutExpired (msg : List Char) : RunRes
  | completed (returncode : Int) (stderr : List Char) : RunRes
  deriving DecidableEq

/-- The shared error-handling tail of the subprocess wrappers: print the
exception on timeout, print stderr on a non-zero return code, else nothing. -/
def errEvs : RunRes → List Ev
  | .timeoutExpired m => [.printEv m]
  | .completed rc err => if rc ≠ 0 then [.printEv err] else []

/-- Exceptions the embedded code can raise. -/
inductive PyErr where
  | typeError (msg : List Char) : PyErr
  | nameError (nm : List Char) : PyErr
  | valueError (msg : List Char) : PyErr
  deriving DecidableEq

namespace colab_assist

/-! ### Module constants (colab_assist.py lines 37-41) -/

def _COLAB_ROOT : List Char := "/content/".data
def _DRIVE_MNTPT : List Char := "/content/drive/".data
def _REPOS_ROOT : List Char := "/content/repos/".data

/-- The `_HOST_NAMES` dictionary lookup; the argument is the (optional) second
capture group, so `.get` of Python is modelled on `Option`. -/
def _HOST_NAMES (t : Option (List Char)) : Option (List Char) :=
  match t with
  | none => none
  | some s =>
    if s = "gh".data then some "github.com".data
    else if s = "gl".data then some "gitlab.com".data
    else if s = "bb".data then some "bitbucket.org".data
    else none

/-! ### The package-specifier pattern of `_parse_package_spec` (lines 576-580) -/

/-- `(?:(\$?[-%+.:\w]*)@)?` : the optional auth component, capture group 1. -/
def authPart : Regex :=
  .opt (.seq (.group 1 (.seq (.opt (lit '$')) (.star authChar))) (lit '@'))

/-- `(?:\$(gh|gl|bb)/|([-a-zA-Z0-9]+\.[-.a-zA-Z0-9]+)/)?` : the optional host
component, capture groups 2 (abbreviation tag) and 3 (domain name). -/
def hostPart : Regex :=
  .opt (.alt
    (.seq (lit '$')
      (.seq (.group 2 (.alt (word2 'g' 'h') (.alt (word2 'g' 'l') (word2 'b' 'b'))))
        (lit '/')))
    (.seq (.group 3 (.seq (.plus domChar) (.seq (lit '.') (.plus domDotChar))))
      (lit '/')))

/-- `([-\w]+/[-.\w]+(?:@[-./\w]+)?)` : the owner/repo@ref component, capture
group 4. -/
def repoPart : Regex :=
  .group 4 (.seq (.plus ownerChar)
    (.seq (lit '/') (.seq (.plus repoChar) (.opt (.seq (lit '@') (.plus refChar))))))

/-- The full pattern of `_parse_package_spec`. -/
def specPattern : Regex := .seq authPart (.seq hostPart repoPart)

/-! ### Environment for external lookups -/

/-- Results of the external lookups `_parse_package_spec` and `install` may
perform: the getpass prompt, the Colab Secrets store (`_colab.userdata.get`),
and `shlex.split` applied to the extra-options string. -/
structure Env where
  getpassInput : List Char
  userdata : List Char → List Char
  shlexSplit : List Char → List (List Char)

/-- `_get_auth` (lines 554-561). -/
def _get_auth (env : Env) (auth : List Char) : List Char :=
  if auth = ['$'] then env.getpassInput
  else
    match auth with
    | '$' :: rest => env.userdata rest
    | _ => auth

/-- `_parse_package_spec` (lines 575-591). -/
def _parse_package_spec (env : Env) (spec : List Char) : List Char :=
  match fullmatch specPattern spec with
  | none => spec
  | some caps =>
    let auth := caps 1
    let host_tag := caps 2
    let host_name0 := caps 3
    let repo := (caps 4).getD []
    let host_name := pyOrD (pyOrO (_HOST_NAMES host_tag) host_name0) "github.com".data
    match auth with
    | some a =>
      if !a.isEmpty then
        "git+https://".data ++ _get_auth env a ++ '@' :: host_name ++ '/' :: repo
      else
        "git+https://".data ++ host_name ++ '/' :: repo
    | none => "git+https://".data ++ host_name ++ '/' :: repo

/-- `install` (lines 44-128): with no packages it returns immediately;
otherwise it spawns one `uv pip install --system ⟨o⟩ -- ⟨specs⟩` subprocess and
handles its outcome.  `res` is the outcome of that (single) subprocess. -/
def install (env : Env) (packages : List (List Char)) (o : List Char) (res : RunRes) :
    List Ev :=
  if packages.isEmpty then []
  else
    .spawn (["uv".data, "pip".data, "install".data, "--system".data]
        ++ env.shlexSplit o ++ ["--".data] ++ packages.map (_parse_package_spec env))
      :: errEvs res

/-- `clone_gh` (lines 159-288).  After the destination-exists check the body
evaluates `auth or _get_auth(secret, "q" not in opt)`; `_get_auth` is defined
with a single parameter (line 554), so a falsy `auth` raises `TypeError`, and a
truthy `auth` reaches `shlex.quote` (line 253) although only `split` was
imported from `shlex` (line 27), raising `NameError`.  A `repo` argument that
does not split into exactly two parts raises `ValueError` at line 246. -/
def clone_gh (existsFs : List Char → Bool) (repo : List Char)
    (dir_name : Option (List Char)) (auth : Option (List Char)) :
    List Ev × Option PyErr :=
  match splitOnChar '/' repo with
  | [_, rname] =>
    let repo_path := pyJoin _REPOS_ROOT (pyOrD dir_name rname)
    if existsFs repo_path then
      ([.printEv (repo_path ++ " already exists. Consider `pull_gh(\x27".data
          ++ pyOrD dir_name rname ++ "\x27)` instead?".data)], none)
    else if pyTruthyO auth then
      ([], some (.nameError "shlex".data))
    else
      ([], some (.typeError
        "_get_auth() takes 1 positional argument but 2 were given".data))
  | _ => ([], some (.valueError "values to unpack".data))

/-- `pull_gh` (lines 290-318): checks that the clone directory exists, then
spawns a single `git pull` subprocess in it. -/
def pull_gh (isDir : List Char → Bool) (dir_name : List Char) (res : RunRes) : List Ev :=
  let repo_path := pyJoin _REPOS_ROOT dir_name
  if !isDir repo_path then
    [.printEv (repo_path ++ " does not exist or is not a directory.".data)]
  else
    .spawn ["git".data, "pull".data] :: errEvs res

/-- The shell command string of `update_git` (line 535). -/
def aptCmd : List Char :=
  "add-apt-repository -y \x27ppa:git-core/ppa\x27 && apt-get -y install git".data

/-- `update_git` (lines 520-547).  The guard flag is `_colab._git_updated`; on
success the body assigns a local variable `_git_updated` (there is no `global`
declaration and the module flag lives in `_colab` anyway), so the returned flag
is the input flag in every branch. -/
def update_git (gitUpdated : Bool) (res : RunRes) : List Ev × Bool :=
  if gitUpdated then ([], gitUpdated)
  else (.spawnShell aptCmd :: errEvs res, gitUpdated)

/-- `_clear_repos` (lines 550-551). -/
def _clear_repos : List Ev := [.rmtreeEv _REPOS_ROOT true]

/-- `end` (lines 513-517); named `end'` because `end` is a Lean keyword. -/
def end' : List Ev := _clear_repos ++ [.flushAndUnmount, .runtimeUnassign]

/-- `mount` (lines 499-505). -/
def mount (force : Bool) : List Ev := [.driveMount _DRIVE_MNTPT force]

/-- `unmount` (lines 508-510). -/
def unmount : List Ev := [.flushAndUnmount]

/-- The fallback message printed by `restart` when no interactive shell exists. -/
def restartFallbackMsg : List Char :=
  "Global interactive shell not found. Try `exit()` or `Runtime -> Restart session`.".data

/-- `restart` (lines 479-496): saves the persisted state, then either asks the
interactive shell to exit or prints a fallback message. -/
def restart (ishellFound : Bool) : List Ev :=
  .saveState :: (if ishellFound then [.askExit] else [.printEv restartFallbackMsg])

/-- The module-level initialization statements of colab_assist.py
(lines 594-595): `_colab._load_state()` then `_colab._update_uv()`. -/
def moduleInit : List Ev := [.loadState, .updateUvState]

/-! ### `download` (lines 428-476) -/

/-- The HTTP response obtained for the requested URL. -/
structure Resp where
  status : Nat
  contentDisposition : Option (List Char)
  chunks : List (List Nat)
  reason : List Char

/-- Environment of a `download` call: the response and models of the pure
stdlib helpers it uses (`EmailMessage.get_filename` applied to a
Content-Disposition header value, `os.path.basename(urlparse(url).path)`, and
`os.getcwd()`). -/
structure DlEnv where
  resp : Resp
  getFilename : List Char → Option (List Char)
  urlPathBasename : List Char → List Char
  cwd : List Char

/-- Rendering of a Python value in an f-string: `None` prints as `"None"`. -/
def pyFStr : Option (List Char) → List Char
  | some s => s
  | none => "None".data

/-- `download`: returns the destination path (or `None`) together with the
trace of effects (file writes and prints). -/
def download (env : DlEnv) (url : List Char) (path : Option (List Char)) :
    Option (List Char) × List Ev :=
  if env.resp.status ≠ 200 then
    (none, [.printEv (url ++ " responded with status".data)])
  else
    match path with
    | some p => (some p, [.writeFile p env.resp.chunks])
    | none =>
      let h := (env.resp.contentDisposition).getD []
      if !h.isEmpty then
        let p := env.cwd ++ '/' :: pyFStr (env.getFilename h)
        (some p, [.writeFile p env.resp.chunks])
      else
        let filename := env.urlPathBasename url
        if !filename.isEmpty then
          let p := env.cwd ++ '/' :: filename
          (some p, [.writeFile p env.resp.chunks])
        else
          (none, [.printEv ("Failed to infer file name from ".data ++ url
            ++ ". Please specify `path`.".data)])

end colab_assist

namespace colab_utils

/-! ### colab_utils.py -/

/-- Environment of the colab_utils functions: the Colab Secrets store (which
may raise, caught in `sync_gh` and modelled as `Except` with the printed error
text), the getpass prompt input, and the `shlex` helpers. -/
structure CuEnv where
  userdataGet : List Char → Except (List Char) (List Char)
  getpassInput : List Char
  shlexQuote : List Char → List Char
  shlexSplit : List Char → List (List Char)

/-- The argv of the `uv` self-update subprocess of `update_uv` (line 237). -/
def uvSelfCmd : List (List Char) :=
  ["uv".data, "pip".data, "install".data, "--system".data, "-q".data, "uv".data]

/-- `update_uv` (lines 225-248): guarded by the module-global `_uv_updated`
(declared `global` in the body), set to `True` exactly on a successful run. -/
def update_uv (uvUpdated : Bool) (res : RunRes) : List Ev × Bool :=
  if uvUpdated then ([], uvUpdated)
  else
    match res with
    | .timeoutExpired m => ([.spawn uvSelfCmd, .printEv m], uvUpdated)
    | .completed rc err =>
      if rc ≠ 0 then ([.spawn uvSelfCmd, .printEv err], uvUpdated)
      else ([.spawn uvSelfCmd], true)

/-- The install subprocess and error handling shared by the tail of `sync_gh`
(lines 93-106). -/
def syncSpawn (env : CuEnv) (auth : Option (List Char)) (owner repo : List Char)
    (branch : Option (List Char)) (res : RunRes) : List Ev :=
  let px :=
    if pyTruthyO auth then
      "git+https://".data ++ auth.getD [] ++ "@github.com/".data
    else "git+https://github.com/".data
  let sx :=
    if pyTruthyO branch then owner ++ '/' :: repo ++ '@' :: branch.getD []
    else owner ++ '/' :: repo
  .spawn (["uv".data, "pip".data, "install".data, "--system".data, "-Uq".data]
      ++ [env.shlexQuote (px ++ sx)])
    :: errEvs res

/-- `sync_gh` (lines 21-106): first `update_uv()`, then authentication
resolution (Colab Secret, explicit `auth`, or getpass prompt), then a single
`uv pip install` subprocess. -/
def sync_gh (env : CuEnv) (uvUpdated : Bool) (uvRes : RunRes) (owner repo : List Char)
    (branch : Option (List Char)) (secret : Option (List Char))
    (auth : Option (List Char)) (prompt : Bool) (res : RunRes) :
    List Ev × Bool :=
  let uv := update_uv uvUpdated uvRes
  if pyTruthyO secret then
    match env.userdataGet (secret.getD []) with
    | .error e => (uv.1 ++ [.printEv e], uv.2)
    | .ok a => (uv.1 ++ syncSpawn env (some a) owner repo branch res, uv.2)
  else if !pyTruthyO auth && prompt then
    (uv.1 ++ syncSpawn env (some env.getpassInput) owner repo branch res, uv.2)
  else
    (uv.1 ++ syncSpawn env auth owner repo branch res, uv.2)

/-- `install` (lines 181-222): first `update_uv()`, then an early return on an
empty package list, else a single `uv pip install` subprocess. -/
def install (env : CuEnv) (uvUpdated : Bool) (uvRes : RunRes)
    (packages : List (List Char)) (res : RunRes) : List Ev × Bool :=
  let uv := update_uv uvUpdated uvRes
  if packages.isEmpty then uv
  else
    let pkgs := packages.map env.shlexQuote
    (uv.1 ++ .spawn (env.shlexSplit
          ("uv pip install --system -q ".data ++ List.intercalate [' '] pkgs))
        :: errEvs res,
      uv.2)

end colab_utils

/-! ### Claim-side description of the shorthand specifier form

These definitions restate the `[auth@][host/]owner/repo[@ref]` shorthand of the spec
as data: which component strings are admissible, how a specifier string is
assembled from them, and which URL the spec says the parser must produce. -/

/-- An admissible auth component: an optional leading `$` followed by
characters of the auth class. -/
def authOk (a : List Char) : Bool :=
  if a.head? = some '$' then a.tail.all authChar else a.all authChar

/-- An admissible optional auth component. -/
def authSpecOk : Option (List Char) → Bool
  | none => true
  | some a => authOk a

/-- The host component of a shorthand specifier: absent, a `$`-tagged
abbreviation, or a dotted domain name. -/
inductive HostSpec where
  | noHost : HostSpec
  | tag (t : List Char) : HostSpec
  | dom (d : List Char) : HostSpec

/-- Admissibility of a host component: the tag is one of `gh`/`gl`/`bb`; a
domain name is a nonempty `[-a-zA-Z0-9]` label, a dot, and a nonempty
`[-.a-zA-Z0-9]` remainder. -/
def hostOk : HostSpec → Bool
  | .noHost => true
  | .tag t => t = "gh".data || t = "gl".data || t = "bb".data
  | .dom d =>
    !(d.takeWhile domChar).isEmpty
      && ((d.dropWhile domChar).head? = some '.')
      && !(d.dropWhile domChar).tail.isEmpty
      && (d.dropWhile domChar).tail.all domDotChar

/-- A nonempty token over a character class. -/
def tokOk (p : Char → Bool) (t : List Char) : Bool := !t.isEmpty && t.all p

/-- An admissible optional ref component. -/
def refOk : Option (List Char) → Bool
  | none => true
  | some r => tokOk refChar r

/-- The text contributed by the optional auth component. -/
def buildAuth : Option (List Char) → List Char
  | none => []
  | some a => a ++ ['@']

/-- The text contributed by the host component. -/
def buildHost : HostSpec → List Char
  | .noHost => []
  | .tag t => '$' :: (t ++ ['/'])
  | .dom d => d ++ ['/']

/-- The text contributed by the optional ref component. -/
def buildRef : Option (List Char) → List Char
  | none => []
  | some r => '@' :: r

/-- A shorthand package specifier assembled from its components:
`[auth@][host/]owner/repo[@ref]`. -/
def buildSpec (a : Option (List Char)) (h : HostSpec) (owner repo : List Char)
    (ref : Option (List Char)) : List Char :=
  buildAuth a ++ buildHost h ++ owner ++ '/' :: repo ++ buildRef ref

/-- The host name the spec says each host component resolves to. -/
def hostNameOf : HostSpec → List Char
  | .noHost => "github.com".data
  | .tag t =>
    if t = "gh".data then "github.com".data
    else if t = "gl".data then "gitlab.com".data
    else "bitbucket.org".data
  | .dom d => d

/-- The fully qualified installable URL the spec says `_parse_package_spec`
must return for a shorthand specifier. -/
def expectedUrl (env : colab_assist.Env) (a : Option (List Char)) (h : HostSpec)
    (owner repo : List Char) (ref : Option (List Char)) : List Char :=
  "git+https://".data
    ++ (match a with
        | some aa => if !aa.isEmpty then colab_assist._get_auth env aa ++ ['@'] else []
        | none => [])
    ++ hostNameOf h ++ '/' :: owner ++ '/' :: repo ++ buildRef ref

/-! ### Claim-side trace observations -/

/-- Whether an event is a subprocess spawn. -/
def isSpawn : Ev → Bool
  | .spawn _ => true
  | .spawnShell _ => true
  | _ => false

/-- Number of subprocesses spawned in a trace. -/
def spawnCount (evs : List Ev) : Nat := evs.countP isSpawn

/-- The error message a subprocess outcome makes the wrappers print, if any. -/
def errMsg : RunRes → Option (List Char)
  | .timeoutExpired m => some m
  | .completed rc err => if rc ≠ 0 then some err else none

/-! ### Concrete environments used by the witnesses -/

/-- A concrete lookup environment. -/
def envW : colab_assist.Env :=
  { getpassInput := "pw".data
    userdata := fun _ => "sec".data
    shlexSplit := fun _ => [] }

/-- A concrete colab_utils environment. -/
def cuEnvW : colab_utils.CuEnv :=
  { userdataGet := fun _ => .ok "tok".data
    getpassInput := "pw".data
    shlexQuote := fun s => s
    shlexSplit := fun _ => ["uv".data] }

/-- A concrete download environment: a 200 response with no
Content-Disposition header and a URL whose basename is `f.bin`. -/
def dlEnvW : colab_assist.DlEnv :=
  { resp := { status := 200, contentDisposition := none, chunks := [[1, 2], [3]],
              reason := "OK".data }
    getFilename := fun _ => none
    urlPathBasename := fun _ => "f.bin".data
    cwd := "/content".data }

/-! ## Lemmas: backtracking-order infrastructure -/

/-- The head of an appended list is the head of a nonempty left part. -/
theorem head?_append_some {α : Type} {l l' : List α} {x : α} (h : l.head? = some x) :
    (l ++ l').head? = some x := by
  cases l <;> simp_all

/-- Head-chaining through `flatMap`: the first outcome of a sequencing is the
first outcome of the continuation applied to the first outcome of the head. -/
theorem head?_flatMap {α β : Type} {l : List α} {f : α → List β} {x : α} {y : β}
    (h1 : l.head? = some x) (h2 : (f x).head? = some y) :
    (l.flatMap f).head? = some y := by
  cases l with
  | nil => simp at h1
  | cons a t =>
    simp only [List.head?_cons, Option.some.injEq] at h1
    subst h1
    simpa only [List.flatMap_cons] using head?_append_some h2

/-- A `flatMap` in which every branch fails is empty. -/
theorem flatMap_nil_of {α β : Type} {l : List α} {f : α → List β}
    (h : ∀ x ∈ l, f x = []) : l.flatMap f = [] := by
  induction l with
  | nil => rfl
  | cons a t ih =>
    rw [List.flatMap_cons, h a (by simp), List.nil_append]
    exact ih fun x hx => h x (by simp [hx])

/-- A sequencing whose leading character class rejects the input head fails. -/
theorem run_seq_ch_nil {p : Char → Bool} (b : Regex) {cs : List Char} (k : Caps)
    (h : ∀ c r, cs = c :: r → p c = false) :
    (Regex.seq (.ch p) b).run cs k = [] := by
  cases cs with
  | nil => simp [Regex.run]
  | cons c r => simp [Regex.run, h c r rfl]

/-! ## Lemmas: greedy repetition -/

/-- `starTails` always offers at least the consume-nothing outcome. -/
theorem starTails_ne_nil (p : Char → Bool) (cs : List Char) : starTails p cs ≠ [] := by
  cases cs with
  | nil => simp [starTails]
  | cons c t => by_cases h : p c <;> simp [starTails, h]

/-- Greedy maximal munch: when the input is a block of class characters
followed by a remainder that does not start with one, the highest-priority
outcome of `p*` stops exactly at the remainder. -/
theorem starTails_head (p : Char → Bool) (xs ys : List Char)
    (hxs : ∀ c ∈ xs, p c = true)
    (hys : ys = [] ∨ ∃ c ys', ys = c :: ys' ∧ p c = false) :
    (starTails p (xs ++ ys)).head? = some ys := by
  induction xs with
  | nil =>
    rcases hys with rfl | ⟨c, ys', rfl, hc⟩
    · simp [starTails]
    · simp [starTails, hc]
  | cons x xs ih =>
    have hx : p x = true := hxs x (by simp)
    rw [List.cons_append, starTails, if_pos hx]
    exact head?_append_some (ih fun c hc => hxs c (by simp [hc]))

/-- Every outcome of `p*` either stops at the first non-class character or
still faces a class character. -/
theorem starTails_mem (p : Char → Bool) (cs r : List Char) (hr : r ∈ starTails p cs) :
    r = cs.dropWhile p ∨ ∃ c r', r = c :: r' ∧ p c = true := by
  induction cs with
  | nil =>
    simp only [starTails, List.mem_singleton] at hr
    left; simp [hr]
  | cons c t ih =>
    by_cases h : p c
    · rw [starTails, if_pos h] at hr
      rcases List.mem_append.mp hr with hr | hr
      · rcases ih hr with h1 | h1
        · left; simp [List.dropWhile, h, h1]
        · right; exact h1
      · right
        exact ⟨c, t, List.mem_singleton.mp hr, h⟩
    · rw [starTails, if_neg h] at hr
      left
      simp [List.dropWhile, h, List.mem_singleton.mp hr]

/-- Greedy maximal munch for `p+` on a nonempty block of class characters. -/
theorem plusTails_head (p : Char → Bool) (x : Char) (xs ys : List Char)
    (hx : p x = true) (hxs : ∀ c ∈ xs, p c = true)
    (hys : ys = [] ∨ ∃ c ys', ys = c :: ys' ∧ p c = false) :
    (plusTails p (x :: (xs ++ ys))).head? = some ys := by
  rw [plusTails, if_pos hx]
  exact starTails_head p xs ys hxs hys

/-- The `p+` analogue of `starTails_mem`. -/
theorem plusTails_mem (p : Char → Bool) (cs r : List Char) (hr : r ∈ plusTails p cs) :
    r = cs.dropWhile p ∨ ∃ c r', r = c :: r' ∧ p c = true := by
  cases cs with
  | nil => simp [plusTails] at hr
  | cons c t =>
    by_cases h : p c
    · rw [plusTails, if_pos h] at hr
      rcases starTails_mem p t r hr with h1 | h1
      · left; simp [List.dropWhile, h, h1]
      · right; exact h1
    · rw [plusTails, if_neg h] at hr
      simp at hr

/-- A sequencing `p+ · q · b` fails when no stopping point of the greedy `p+`
can satisfy `q`: class characters of `p` never satisfy `q`, and neither does
the head of the input with its maximal `p`-prefix removed. -/
theorem run_plus_stop_nil {p q : Char → Bool} (b : Regex) {cs : List Char} (k : Caps)
    (hpq : ∀ c, p c = true → q c = false)
    (hdw : ∀ c r, cs.dropWhile p = c :: r → q c = false) :
    (Regex.seq (.plus p) (Regex.seq (.ch q) b)).run cs k = [] := by
  show ((Regex.plus p).run cs k).flatMap _ = []
  apply flatMap_nil_of
  intro x hx
  simp only [Regex.run, List.mem_map] at hx
  obtain ⟨r, hr, rfl⟩ := hx
  apply run_seq_ch_nil
  intro c r' hcr
  rcases plusTails_mem p cs r hr with h1 | ⟨c2, r2, h2, hp2⟩
  · exact hdw c r' (by rw [← h1]; exact hcr)
  · have h3 : c2 :: r2 = c :: r' := h2.symm.trans hcr
    injection h3 with h4 _
    rw [← h4]
    exact hpq c2 hp2

/-! ## Lemmas: dropWhile bookkeeping -/

/-- `dropWhile` cannot cross a character that fails the class. -/
theorem dropWhile_append_stop {p : Char → Bool} (xs : List Char) {d : Char} (ys : List Char)
    (hd : p d = false) :
    (xs ++ d :: ys).dropWhile p = xs.dropWhile p ++ d :: ys := by
  induction xs with
  | nil => simp [List.dropWhile, hd]
  | cons c t ih =>
    by_cases h : p c <;> simp [List.dropWhile, h, ih]

/-- The head of `dropWhile p l` is an element of `l`. -/
theorem dropWhile_head_mem {p : Char → Bool} {l r : List Char} {c : Char}
    (h : l.dropWhile p = c :: r) : c ∈ l := by
  induction l with
  | nil => simp [List.dropWhile] at h
  | cons a t ih =>
    by_cases ha : p a
    · rw [List.dropWhile_cons_of_pos ha] at h
      exact List.mem_cons_of_mem a (ih h)
    · rw [List.dropWhile_cons_of_neg ha] at h
      injection h with h1 _
      rw [← h1]
      exact List.mem_cons_self a t

/-- The head of `dropWhile p l` fails `p`. -/
theorem dropWhile_head_not {p : Char → Bool} {l r : List Char} {c : Char}
    (h : l.dropWhile p = c :: r) : p c = false := by
  have := List.head?_dropWhile_not p l
  rw [h] at this
  simpa using this

/-! ## Lemmas: the auth component -/

/-- A list with a member failing the predicate does not satisfy `all`. -/
theorem all_false_of_mem {p : Char → Bool} {ts : List Char} {x : Char}
    (hx : x ∈ ts) (hp : p x = false) : ts.all p = false := by
  rw [Bool.eq_false_iff]
  intro hall
  have := List.all_eq_true.mp hall x hx
  rw [hp] at this
  exact Bool.noConfusion this

/-- A candidate auth component containing a slash is inadmissible. -/
theorem authOk_slash {ts : List Char} (h : '/' ∈ ts) : authOk ts = false := by
  cases ts with
  | nil => simp at h
  | cons c t =>
    unfold authOk
    by_cases hc : c = '$'
    · subst hc
      rw [List.head?_cons, if_pos rfl, List.tail_cons]
      rcases List.mem_cons.mp h with h1 | h1
      · exact absurd h1 (by decide)
      · exact all_false_of_mem h1 (by decide)
    · rw [List.head?_cons, if_neg (by simpa using hc)]
      exact all_false_of_mem h (by decide)

/-- A character-class list is an admissible plain auth token. -/
theorem authOk_of_all {ts : List Char} (h : ∀ c ∈ ts, authChar c = true) :
    authOk ts = true := by
  unfold authOk
  cases ts with
  | nil => simp
  | cons c t =>
    have hc := h c (List.mem_cons_self c t)
    have hne : (c :: t).head? ≠ some '$' := by
      rw [List.head?_cons]
      intro h1
      injection h1 with h2
      rw [h2] at hc
      exact Bool.noConfusion hc
    rw [if_neg hne]
    exact List.all_eq_true.mpr h

/-- A `$`-prefixed character-class list is an admissible auth token. -/
theorem authOk_dollar {t : List Char} (h : ∀ c ∈ t, authChar c = true) :
    authOk ('$' :: t) = true := by
  unfold authOk
  rw [List.head?_cons, if_pos rfl, List.tail_cons]
  exact List.all_eq_true.mpr h

/-- Splitting a list of the shape `X ++ dd :: Y` at an occurrence of a
character `cc` absent from `X` and different from `dd` puts `dd` inside the
part before the occurrence. -/
theorem mem_left_of_split {X Y ts r' : List Char} {dd cc : Char}
    (he : X ++ dd :: Y = ts ++ cc :: r')
    (hX : ∀ x ∈ X, x ≠ cc) (hd : dd ≠ cc) : dd ∈ ts := by
  induction X generalizing ts with
  | nil =>
    cases ts with
    | nil =>
      rw [List.nil_append, List.nil_append] at he
      injection he with h1 _
      exact absurd h1 hd
    | cons a ts' =>
      rw [List.nil_append, List.cons_append] at he
      injection he with h1 _
      rw [h1]
      exact List.mem_cons_self a ts'
  | cons x X' ih =>
    cases ts with
    | nil =>
      rw [List.cons_append, List.nil_append] at he
      injection he with h1 _
      exact absurd h1 (hX x (List.mem_cons_self x X'))
    | cons a ts' =>
      rw [List.cons_append, List.cons_append] at he
      injection he with _ h2
      exact List.mem_cons_of_mem a (ih h2 fun y hy => hX y (List.mem_cons_of_mem x hy))

/-- Classification of the outcomes of `\$?[-%+.:\w]*`: the remaining input
either still starts with an auth character, or is the input with its maximal
auth prefix removed, or — when the input starts with `$` — the tail with its
maximal auth prefix removed. -/
theorem optDollar_star_mem {cs : List Char} {k : Caps} {y : Caps × List Char}
    (hy : y ∈ (Regex.seq (.opt (lit '$')) (.star authChar)).run cs k) :
    (∃ c r', y.2 = c :: r' ∧ authChar c = true) ∨
    y.2 = cs.dropWhile authChar ∨
    (∃ cs', cs = '$' :: cs' ∧ y.2 = cs'.dropWhile authChar) := by
  have hy2 : y ∈ ((lit '$').run cs k ++ [(k, cs)]).flatMap
      (fun z => (Regex.star authChar).run z.2 z.1) := hy
  obtain ⟨z, hz, hyz⟩ := List.mem_flatMap.mp hy2
  have hz' : (∃ t, cs = '$' :: t ∧ z = (k, t)) ∨ z = (k, cs) := by
    rcases List.mem_append.mp hz with h1 | h1
    · cases cs with
      | nil => simp [Regex.run, lit] at h1
      | cons c t =>
        by_cases hc : c = '$'
        · subst hc
          refine Or.inl ⟨t, rfl, ?_⟩
          simpa [Regex.run, lit] using h1
        · simp [Regex.run, lit, hc] at h1
    · exact Or.inr (List.mem_singleton.mp h1)
  obtain ⟨r, hr, rfl⟩ : ∃ r ∈ starTails authChar z.2, (z.1, r) = y := by
    simpa [Regex.run] using hyz
  rcases starTails_mem _ _ _ hr with hdw | ⟨c, r', hrr, hc⟩
  · rcases hz' with ⟨t, rfl, rfl⟩ | rfl
    · exact Or.inr (Or.inr ⟨t, rfl, hdw⟩)
    · exact Or.inr (Or.inl hdw)
  · exact Or.inl ⟨c, r', hrr, hc⟩

/-- The auth alternative `(\$?[-%+.:\w]*)@` fails outright on input in which
no admissible auth token is followed by `@`. -/
theorem authInner_run_nil {cs : List Char} (k : Caps)
    (h : ∀ ts r', cs = ts ++ '@' :: r' → authOk ts = false) :
    (Regex.seq (.group 1 (.seq (.opt (lit '$')) (.star authChar))) (lit '@')).run cs k
      = [] := by
  show ((((Regex.seq (.opt (lit '$')) (.star authChar)).run cs k).map
      (fun x => (setCap x.1 1 (cs.take (cs.length - x.2.length)), x.2))).flatMap
      (fun x => (lit '@').run x.2 x.1)) = []
  apply flatMap_nil_of
  intro x hx
  obtain ⟨y, hy, rfl⟩ := List.mem_map.mp hx
  show (lit '@').run y.2 _ = []
  rcases optDollar_star_mem hy with ⟨c, r', h2, hc⟩ | h2 | ⟨cs', rfl, h2⟩
  · rw [h2]
    by_cases h4 : c = '@'
    · rw [h4] at hc
      exact absurd hc (by decide)
    · simp [Regex.run, lit, h4]
  · cases h3 : y.2 with
    | nil => simp [Regex.run]
    | cons c r' =>
      rw [h3] at h2
      by_cases h4 : c = '@'
      · subst h4
        have h5 : cs = cs.takeWhile authChar ++ '@' :: r' := by
          conv_lhs => rw [← List.takeWhile_append_dropWhile authChar cs]
          rw [← h2]
        have h6 := h _ _ h5
        rw [authOk_of_all (fun c hc => List.mem_takeWhile_imp hc)] at h6
        exact Bool.noConfusion h6
      · simp [Regex.run, lit, h4]
  · cases h3 : y.2 with
    | nil => simp [Regex.run]
    | cons c r' =>
      rw [h3] at h2
      by_cases h4 : c = '@'
      · subst h4
        have h5 : '$' :: cs' = ('$' :: cs'.takeWhile authChar) ++ '@' :: r' := by
          rw [List.cons_append]
          congr 1
          conv_lhs => rw [← List.takeWhile_append_dropWhile authChar cs']
          rw [← h2]
        have h6 := h _ _ h5
        rw [authOk_dollar (fun c hc => List.mem_takeWhile_imp hc)] at h6
        exact Bool.noConfusion h6
      · simp [Regex.run, lit, h4]

/-- Capture-group bookkeeping: taking the difference of lengths recovers the
consumed prefix. -/
theorem take_sub_len (xs r : List Char) :
    (xs ++ r).take ((xs ++ r).length - r.length) = xs := by
  rw [List.length_append, Nat.add_sub_cancel]
  exact List.take_left xs r

/-- When no admissible auth token followed by `@` starts the input, the
optional auth component matches empty with highest priority and sets no
capture. -/
theorem authPart_head_none {cs : List Char} (k : Caps)
    (h : ∀ ts r', cs = ts ++ '@' :: r' → authOk ts = false) :
    (colab_assist.authPart.run cs k).head? = some (k, cs) := by
  show ((Regex.seq (.group 1 (.seq (.opt (lit '$')) (.star authChar))) (lit '@')).run cs k
      ++ [(k, cs)]).head? = some (k, cs)
  rw [authInner_run_nil k h]
  rfl

/-- The highest-priority outcome of `\$?[-%+.:\w]*` on an admissible auth
token followed by a remainder consumes exactly the token. -/
theorem optDollar_star_head {a R : List Char} (k : Caps) (ha : authOk a = true) :
    ((Regex.seq (.opt (lit '$')) (.star authChar)).run (a ++ '@' :: R) k).head?
      = some (k, '@' :: R) := by
  by_cases hd : a.head? = some '$'
  · obtain ⟨t, rfl⟩ : ∃ t, a = '$' :: t := by
      cases a with
      | nil => simp at hd
      | cons c t =>
        refine ⟨t, ?_⟩
        rw [List.head?_cons] at hd
        injection hd with h1
        rw [h1]
    have hall : ∀ c ∈ t, authChar c = true := by
      unfold authOk at ha
      rw [List.head?_cons, if_pos rfl, List.tail_cons] at ha
      exact List.all_eq_true.mp ha
    apply head?_flatMap (x := (k, t ++ '@' :: R))
    · show (((lit '$').run ('$' :: (t ++ '@' :: R)) k)
          ++ [(k, '$' :: (t ++ '@' :: R))]).head? = some (k, t ++ '@' :: R)
      simp [Regex.run, lit]
    · show ((starTails authChar (t ++ '@' :: R)).map (fun r => (k, r))).head?
        = some (k, '@' :: R)
      rw [List.head?_map,
        starTails_head authChar t ('@' :: R) hall (Or.inr ⟨'@', R, rfl, by decide⟩)]
      rfl
  · have hall : ∀ c ∈ a, authChar c = true := by
      unfold authOk at ha
      rw [if_neg hd] at ha
      exact List.all_eq_true.mp ha
    apply head?_flatMap (x := (k, a ++ '@' :: R))
    · show (((lit '$').run (a ++ '@' :: R) k) ++ [(k, a ++ '@' :: R)]).head?
        = some (k, a ++ '@' :: R)
      have hnil : (lit '$').run (a ++ '@' :: R) k = [] := by
        cases a with
        | nil => simp [Regex.run, lit]
        | cons c t =>
          have hc : ¬ (c = '$') := by
            intro hh
            exact hd (by rw [List.head?_cons, hh])
          rw [List.cons_append]
          simp [Regex.run, lit, hc]
      rw [hnil]
      rfl
    · show ((starTails authChar (a ++ '@' :: R)).map (fun r => (k, r))).head?
        = some (k, '@' :: R)
      rw [List.head?_map,
        starTails_head authChar a ('@' :: R) hall (Or.inr ⟨'@', R, rfl, by decide⟩)]
      rfl

/-- For an admissible auth component `a`, the optional auth part on
`a ++ '@' :: R` consumes `a@` with highest priority and captures `a` as
group 1. -/
theorem authPart_head_some {a R : List Char} (k : Caps) (ha : authOk a = true) :
    (colab_assist.authPart.run (a ++ '@' :: R) k).head? = some (setCap k 1 a, R) := by
  show ((Regex.seq (.group 1 (.seq (.opt (lit '$')) (.star authChar))) (lit '@')).run
        (a ++ '@' :: R) k
      ++ [(k, a ++ '@' :: R)]).head? = some (setCap k 1 a, R)
  apply head?_append_some
  apply head?_flatMap (x := (setCap k 1 a, '@' :: R))
  · show (((Regex.seq (.opt (lit '$')) (.star authChar)).run (a ++ '@' :: R) k).map
        (fun x => (setCap x.1 1 ((a ++ '@' :: R).take ((a ++ '@' :: R).length
          - x.2.length)), x.2))).head?
      = some (setCap k 1 a, '@' :: R)
    rw [List.head?_map, optDollar_star_head k ha]
    rw [Option.map_some']
    rw [take_sub_len a ('@' :: R)]
  · simp [Regex.run, lit]

/-! ## Lemmas: the host component -/

/-- A nonempty token consists of class characters. -/
theorem tokOk_all {p : Char → Bool} {t : List Char} (h : tokOk p t = true) :
    ∀ c ∈ t, p c = true := by
  unfold tokOk at h
  rw [Bool.and_eq_true] at h
  exact List.all_eq_true.mp h.2

/-- The domain-name alternative fails when no stopping point of the greedy
first label can be a dot. -/
theorem domAlt_run_nil {cs : List Char} (k : Caps)
    (hdw : ∀ c r, cs.dropWhile domChar = c :: r → ¬ (c = '.')) :
    (Regex.seq (.group 3 (.seq (.plus domChar) (.seq (lit '.') (.plus domDotChar))))
        (lit '/')).run cs k = [] := by
  show ((((Regex.seq (.plus domChar) (.seq (lit '.') (.plus domDotChar))).run cs k).map
      (fun x => (setCap x.1 3 (cs.take (cs.length - x.2.length)), x.2))).flatMap
      (fun x => (lit '/').run x.2 x.1)) = []
  have hinner : (Regex.seq (.plus domChar)
      (.seq (lit '.') (.plus domDotChar))).run cs k = [] := by
    apply run_plus_stop_nil
    · intro c hc
      apply decide_eq_false
      intro hh
      rw [hh] at hc
      exact absurd hc (by decide)
    · intro c r hcr
      exact decide_eq_false (hdw c r hcr)
  rw [hinner]
  rfl

/-- On `owner/...` input with an admissible owner, the optional host
component matches empty with highest priority: the tag alternative fails on
the first character and the domain alternative cannot reach a dot. -/
theorem hostPart_head_none {owner Q : List Char} (k : Caps)
    (ho : tokOk ownerChar owner = true) :
    (colab_assist.hostPart.run (owner ++ '/' :: Q) k).head?
      = some (k, owner ++ '/' :: Q) := by
  obtain ⟨o, ot, rfl⟩ : ∃ o ot, owner = o :: ot := by
    cases owner with
    | nil => simp [tokOk] at ho
    | cons o ot => exact ⟨o, ot, rfl⟩
  have hoc := tokOk_all ho
  have htag : (Regex.seq (lit '$') (.seq (.group 2 (.alt (word2 'g' 'h')
      (.alt (word2 'g' 'l') (word2 'b' 'b')))) (lit '/'))).run
      ((o :: ot) ++ '/' :: Q) k = [] := by
    apply run_seq_ch_nil
    intro c r hcr
    rw [List.cons_append] at hcr
    injection hcr with h1 _
    apply decide_eq_false
    intro hh
    have h2 := hoc o (List.mem_cons_self o ot)
    rw [h1, hh] at h2
    exact absurd h2 (by decide)
  have hdom : (Regex.seq (.group 3 (.seq (.plus domChar) (.seq (lit '.')
      (.plus domDotChar)))) (lit '/')).run ((o :: ot) ++ '/' :: Q) k = [] := by
    apply domAlt_run_nil
    intro c r hcr
    rw [dropWhile_append_stop (o :: ot) Q (by decide)] at hcr
    cases hdw : (o :: ot).dropWhile domChar with
    | nil =>
      rw [hdw, List.nil_append] at hcr
      injection hcr with h1 _
      rw [← h1]
      decide
    | cons c0 r0 =>
      rw [hdw, List.cons_append] at hcr
      injection hcr with h1 _
      intro hh
      have h2 := hoc c0 (dropWhile_head_mem hdw)
      rw [h1, hh] at h2
      exact absurd h2 (by decide)
  show (((Regex.seq (lit '$') (.seq (.group 2 (.alt (word2 'g' 'h')
        (.alt (word2 'g' 'l') (word2 'b' 'b')))) (lit '/'))).run ((o :: ot) ++ '/' :: Q) k
      ++ (Regex.seq (.group 3 (.seq (.plus domChar) (.seq (lit '.')
        (.plus domDotChar)))) (lit '/')).run ((o :: ot) ++ '/' :: Q) k)
      ++ [(k, (o :: ot) ++ '/' :: Q)]).head? = some (k, (o :: ot) ++ '/' :: Q)
  rw [htag, hdom]
  rfl

/-- On `$⟨tag⟩/...` input the tag alternative of the host component matches
with highest priority, capturing the tag as group 2. -/
theorem hostPart_head_tag {t Q : List Char} (k : Caps)
    (ht : t = ['g', 'h'] ∨ t = ['g', 'l'] ∨ t = ['b', 'b']) :
    (colab_assist.hostPart.run ('$' :: (t ++ '/' :: Q)) k).head?
      = some (setCap k 2 t, Q) := by
  have step : ∀ u : List Char, u = ['g', 'h'] ∨ u = ['g', 'l'] ∨ u = ['b', 'b'] →
      ((Regex.alt (word2 'g' 'h') (.alt (word2 'g' 'l') (word2 'b' 'b'))).run
        (u ++ '/' :: Q) k).head? = some (k, '/' :: Q) := by
    intro u hu
    rcases hu with rfl | rfl | rfl
    · apply head?_append_some
      simp [Regex.run, word2, lit]
    · have h1 : (word2 'g' 'h').run (['g', 'l'] ++ '/' :: Q) k = [] := by
        simp [Regex.run, word2, lit]
      show (((word2 'g' 'h').run (['g', 'l'] ++ '/' :: Q) k)
          ++ ((Regex.alt (word2 'g' 'l') (word2 'b' 'b')).run (['g', 'l'] ++ '/' :: Q) k)
          ).head? = some (k, '/' :: Q)
      rw [h1, List.nil_append]
      apply head?_append_some
      simp [Regex.run, word2, lit]
    · have h1 : (word2 'g' 'h').run (['b', 'b'] ++ '/' :: Q) k = [] := by
        simp [Regex.run, word2, lit]
      have h2 : (word2 'g' 'l').run (['b', 'b'] ++ '/' :: Q) k = [] := by
        simp [Regex.run, word2, lit]
      show (((word2 'g' 'h').run (['b', 'b'] ++ '/' :: Q) k)
          ++ (((word2 'g' 'l').run (['b', 'b'] ++ '/' :: Q) k)
            ++ ((word2 'b' 'b').run (['b', 'b'] ++ '/' :: Q) k))).head?
          = some (k, '/' :: Q)
      rw [h1, h2, List.nil_append, List.nil_append]
      simp [Regex.run, word2, lit]
  apply head?_append_some
  apply head?_append_some
  apply head?_flatMap (x := (k, t ++ '/' :: Q))
  · simp [Regex.run, lit]
  · apply head?_flatMap (x := (setCap k 2 t, '/' :: Q))
    · show ((((Regex.alt (word2 'g' 'h') (.alt (word2 'g' 'l') (word2 'b' 'b'))).run
          (t ++ '/' :: Q) k).map
          (fun x => (setCap x.1 2 ((t ++ '/' :: Q).take
            ((t ++ '/' :: Q).length - x.2.length)), x.2))).head?)
        = some (setCap k 2 t, '/' :: Q)
      rw [List.head?_map, step t ht]
      simp only [Option.map_some']
      rw [take_sub_len t ('/' :: Q)]
    · simp [Regex.run, lit]

/-- On `⟨domain⟩/...` input the domain alternative of the host component
matches with highest priority, capturing the domain as group 3. -/
theorem hostPart_head_dom {d Q : List Char} (k : Caps)
    (hd : hostOk (.dom d) = true) :
    (colab_assist.hostPart.run (d ++ '/' :: Q) k).head? = some (setCap k 3 d, Q) := by
  unfold hostOk at hd
  rw [Bool.and_eq_true, Bool.and_eq_true, Bool.and_eq_true] at hd
  obtain ⟨⟨⟨hne1, hdot⟩, hne2⟩, hall2⟩ := hd
  obtain ⟨c1, d1t, hd1⟩ : ∃ c1 d1t, d.takeWhile domChar = c1 :: d1t := by
    cases h : d.takeWhile domChar with
    | nil => rw [h] at hne1; simp at hne1
    | cons a b => exact ⟨a, b, rfl⟩
  obtain ⟨d2, hd2⟩ : ∃ d2, d.dropWhile domChar = '.' :: d2 := by
    cases h : d.dropWhile domChar with
    | nil => rw [h] at hdot; simp at hdot
    | cons a b =>
      rw [h] at hdot
      rw [List.head?_cons] at hdot
      refine ⟨b, ?_⟩
      injection of_decide_eq_true hdot with h1
      rw [h1]
  obtain ⟨c2, d2t, hd2t⟩ : ∃ c2 d2t, d2 = c2 :: d2t := by
    cases h : d2 with
    | nil =>
      rw [hd2, h] at hne2
      simp at hne2
    | cons a b => exact ⟨a, b, rfl⟩
  have hsplit : d = d.takeWhile domChar ++ '.' :: d2 := by
    conv_lhs => rw [← List.takeWhile_append_dropWhile domChar d]
    rw [hd2]
  have hall1 : ∀ c ∈ d.takeWhile domChar, domChar c = true :=
    fun c hc => List.mem_takeWhile_imp hc
  have hall2' : ∀ c ∈ d2, domDotChar c = true := by
    rw [hd2, List.tail_cons] at hall2
    exact List.all_eq_true.mp hall2
  have htag : (Regex.seq (lit '$') (.seq (.group 2 (.alt (word2 'g' 'h')
      (.alt (word2 'g' 'l') (word2 'b' 'b')))) (lit '/'))).run (d ++ '/' :: Q) k
      = [] := by
    apply run_seq_ch_nil
    intro c r hcr
    rw [hsplit, hd1, List.cons_append, List.cons_append] at hcr
    injection hcr with h1 _
    apply decide_eq_false
    intro hh
    have h2 := hall1 c1 (by rw [hd1]; exact List.mem_cons_self c1 d1t)
    rw [h1, hh] at h2
    exact absurd h2 (by decide)
  have hdom : ((Regex.seq (.group 3 (.seq (.plus domChar) (.seq (lit '.')
      (.plus domDotChar)))) (lit '/')).run (d ++ '/' :: Q) k).head?
      = some (setCap k 3 d, Q) := by
    apply head?_flatMap (x := (setCap k 3 d, '/' :: Q))
    · show ((((Regex.seq (.plus domChar) (.seq (lit '.') (.plus domDotChar))).run
          (d ++ '/' :: Q) k).map
          (fun x => (setCap x.1 3 ((d ++ '/' :: Q).take
            ((d ++ '/' :: Q).length - x.2.length)), x.2))).head?)
        = some (setCap k 3 d, '/' :: Q)
      rw [List.head?_map]
      have hin : ((Regex.seq (.plus domChar) (.seq (lit '.') (.plus domDotChar))).run
          (d ++ '/' :: Q) k).head? = some (k, '/' :: Q) := by
        apply head?_flatMap (x := (k, '.' :: (d2 ++ '/' :: Q)))
        · show ((plusTails domChar (d ++ '/' :: Q)).map (fun r => (k, r))).head?
            = some (k, '.' :: (d2 ++ '/' :: Q))
          rw [List.head?_map]
          have harr : d ++ '/' :: Q = c1 :: (d1t ++ ('.' :: (d2 ++ '/' :: Q))) := by
            conv_lhs => rw [hsplit, hd1]
            simp
          rw [harr, plusTails_head domChar c1 d1t ('.' :: (d2 ++ '/' :: Q))
            (by
              have := hall1 c1 (by rw [hd1]; exact List.mem_cons_self c1 d1t)
              exact this)
            (fun c hc => hall1 c (by rw [hd1]; exact List.mem_cons_of_mem c1 hc))
            (Or.inr ⟨'.', d2 ++ '/' :: Q, rfl, by decide⟩)]
          rfl
        · apply head?_flatMap (x := (k, d2 ++ '/' :: Q))
          · simp [Regex.run, lit]
          · show ((plusTails domDotChar (d2 ++ '/' :: Q)).map (fun r => (k, r))).head?
              = some (k, '/' :: Q)
            rw [List.head?_map]
            have harr2 : d2 ++ '/' :: Q = c2 :: (d2t ++ '/' :: Q) := by
              rw [hd2t]
              simp
            rw [harr2, plusTails_head domDotChar c2 d2t ('/' :: Q)
              (hall2' c2 (by rw [hd2t]; exact List.mem_cons_self c2 d2t))
              (fun c hc => hall2' c (by rw [hd2t]; exact List.mem_cons_of_mem c2 hc))
              (Or.inr ⟨'/', Q, rfl, by decide⟩)]
            rfl
      rw [hin]
      simp only [Option.map_some']
      rw [take_sub_len d ('/' :: Q)]
    · simp [Regex.run, lit]
  show (((Regex.seq (lit '$') (.seq (.group 2 (.alt (word2 'g' 'h')
        (.alt (word2 'g' 'l') (word2 'b' 'b')))) (lit '/'))).run (d ++ '/' :: Q) k
      ++ (Regex.seq (.group 3 (.seq (.plus domChar) (.seq (lit '.')
        (.plus domDotChar)))) (lit '/')).run (d ++ '/' :: Q) k)
      ++ [(k, d ++ '/' :: Q)]).head? = some (setCap k 3 d, Q)
  rw [htag, List.nil_append]
  exact head?_append_some hdom

/-! ## Lemmas: the owner/repo@ref component -/

/-- A nonempty token has a head. -/
theorem tokOk_cons {p : Char → Bool} {t : List Char} (h : tokOk p t = true) :
    ∃ c ct, t = c :: ct := by
  cases t with
  | nil => simp [tokOk] at h
  | cons c ct => exact ⟨c, ct, rfl⟩

/-- On `owner/repo[@ref]` input with admissible components, the
owner/repo@ref component consumes the whole input with highest priority and
captures it as group 4. -/
theorem repoPart_head {owner repo : List Char} {ref : Option (List Char)} (k : Caps)
    (ho : tokOk ownerChar owner = true) (hr : tokOk repoChar repo = true)
    (hf : refOk ref = true) :
    (colab_assist.repoPart.run (owner ++ '/' :: (repo ++ buildRef ref)) k).head?
      = some (setCap k 4 (owner ++ '/' :: (repo ++ buildRef ref)), []) := by
  obtain ⟨o, ot, rfl⟩ := tokOk_cons ho
  obtain ⟨r0, rt, rfl⟩ := tokOk_cons hr
  show ((((Regex.seq (.plus ownerChar) (.seq (lit '/') (.seq (.plus repoChar)
        (.opt (.seq (lit '@') (.plus refChar)))))).run
        ((o :: ot) ++ '/' :: ((r0 :: rt) ++ buildRef ref)) k).map
      (fun x => (setCap x.1 4 (((o :: ot) ++ '/' :: ((r0 :: rt) ++ buildRef ref)).take
        (((o :: ot) ++ '/' :: ((r0 :: rt) ++ buildRef ref)).length - x.2.length)),
        x.2))).head?)
    = some (setCap k 4 ((o :: ot) ++ '/' :: ((r0 :: rt) ++ buildRef ref)), [])
  rw [List.head?_map]
  have hin : ((Regex.seq (.plus ownerChar) (.seq (lit '/') (.seq (.plus repoChar)
      (.opt (.seq (lit '@') (.plus refChar)))))).run
      ((o :: ot) ++ '/' :: ((r0 :: rt) ++ buildRef ref)) k).head? = some (k, []) := by
    apply head?_flatMap (x := (k, '/' :: ((r0 :: rt) ++ buildRef ref)))
    · show ((plusTails ownerChar ((o :: ot) ++ '/' :: ((r0 :: rt) ++ buildRef ref))).map
          (fun r => (k, r))).head? = some (k, '/' :: ((r0 :: rt) ++ buildRef ref))
      rw [List.head?_map]
      have harr : (o :: ot) ++ '/' :: ((r0 :: rt) ++ buildRef ref)
          = o :: (ot ++ '/' :: ((r0 :: rt) ++ buildRef ref)) := by simp
      rw [harr, plusTails_head ownerChar o ot ('/' :: ((r0 :: rt) ++ buildRef ref))
        (tokOk_all ho o (List.mem_cons_self o ot))
        (fun c hc => tokOk_all ho c (List.mem_cons_of_mem o hc))
        (Or.inr ⟨'/', (r0 :: rt) ++ buildRef ref, rfl, by decide⟩)]
      rfl
    · apply head?_flatMap (x := (k, (r0 :: rt) ++ buildRef ref))
      · simp [Regex.run, lit]
      · apply head?_flatMap (x := (k, buildRef ref))
        · show ((plusTails repoChar ((r0 :: rt) ++ buildRef ref)).map
              (fun r => (k, r))).head? = some (k, buildRef ref)
          rw [List.head?_map]
          have harr2 : (r0 :: rt) ++ buildRef ref = r0 :: (rt ++ buildRef ref) := by simp
          have hys : buildRef ref = []
              ∨ ∃ c ys', buildRef ref = c :: ys' ∧ repoChar c = false := by
            cases ref with
            | none => exact Or.inl rfl
            | some r => exact Or.inr ⟨'@', r, rfl, by decide⟩
          rw [harr2, plusTails_head repoChar r0 rt (buildRef ref)
            (tokOk_all hr r0 (List.mem_cons_self r0 rt))
            (fun c hc => tokOk_all hr c (List.mem_cons_of_mem r0 hc)) hys]
          rfl
        · cases ref with
          | none =>
            show ((Regex.seq (lit '@') (.plus refChar)).run [] k
                ++ [(k, [])]).head? = some (k, [])
            have h0 : (Regex.seq (lit '@') (.plus refChar)).run [] k = [] := rfl
            rw [h0]
            rfl
          | some r =>
            obtain ⟨rr, rrt, rfl⟩ := tokOk_cons (p := refChar) (by simpa [refOk] using hf)
            show ((Regex.seq (lit '@') (.plus refChar)).run ('@' :: (rr :: rrt)) k
                ++ [(k, '@' :: (rr :: rrt))]).head? = some (k, [])
            apply head?_append_some
            apply head?_flatMap (x := (k, rr :: rrt))
            · simp [Regex.run, lit]
            · show ((plusTails refChar (rr :: rrt)).map (fun r => (k, r))).head?
                = some (k, [])
              rw [List.head?_map]
              have harr3 : rr :: rrt = rr :: (rrt ++ []) := by simp
              have hrall : ∀ c ∈ rr :: rrt, refChar c = true :=
                tokOk_all (by simpa [refOk] using hf)
              rw [harr3, plusTails_head refChar rr rrt []
                (hrall rr (List.mem_cons_self rr rrt))
                (fun c hc => hrall c (List.mem_cons_of_mem rr hc))
                (Or.inl rfl)]
              rfl
  rw [hin]
  simp only [Option.map_some']
  rw [List.length_nil, Nat.sub_zero, List.take_length]

/-! ## Lemmas: assembling the full match -/

/-- If the highest-priority outcome of a run already consumed the whole input,
it is the full match. -/
theorem firstFull_of_head {l : List (Caps × List Char)} {K : Caps}
    (h : l.head? = some (K, [])) : firstFull l = some K := by
  cases l with
  | nil => simp at h
  | cons x t =>
    rw [List.head?_cons] at h
    injection h with h1
    subst h1
    rfl

/-- In a string of the shape `P ++ / ++ Q` with no `@` in `P`, no admissible
auth token is followed by `@`. -/
theorem noAuth_of_clean_prefix {P Q : List Char} (hP : ∀ c ∈ P, ¬ (c = '@')) :
    ∀ ts r', P ++ '/' :: Q = ts ++ '@' :: r' → authOk ts = false := by
  intro ts r' he
  exact authOk_slash (mem_left_of_split he hP (by decide))

/-- An admissible domain name contains no `@`. -/
theorem dom_no_at {d : List Char} (hd : hostOk (.dom d) = true) :
    ∀ c ∈ d, ¬ (c = '@') := by
  intro c hc hh
  subst hh
  unfold hostOk at hd
  rw [Bool.and_eq_true, Bool.and_eq_true, Bool.and_eq_true] at hd
  obtain ⟨⟨⟨_, hdot⟩, _⟩, hall⟩ := hd
  rw [← List.takeWhile_append_dropWhile domChar d] at hc
  rcases List.mem_append.mp hc with h1 | h1
  · exact absurd (List.mem_takeWhile_imp h1) (by decide)
  · cases hdw : d.dropWhile domChar with
    | nil =>
      rw [hdw] at h1
      simp at h1
    | cons c0 tl =>
      rw [hdw] at h1 hdot hall
      have hc0 : c0 = '.' := by
        have h2 := of_decide_eq_true hdot
        rw [List.head?_cons] at h2
        injection h2
      rcases List.mem_cons.mp h1 with h2 | h2
      · rw [hc0] at h2
        exact absurd h2 (by decide)
      · rw [List.tail_cons] at hall
        exact absurd (List.all_eq_true.mp hall '@' h2) (by decide)

/-- An admissible domain name is nonempty. -/
theorem dom_ne_nil {d : List Char} (hd : hostOk (.dom d) = true) : d ≠ [] := by
  intro hh
  subst hh
  simp [hostOk] at hd

/-- An admissible tag is one of the three literal abbreviations. -/
theorem hostOk_tag_cases {t : List Char} (ht : hostOk (.tag t) = true) :
    t = ['g', 'h'] ∨ t = ['g', 'l'] ∨ t = ['b', 'b'] := by
  unfold hostOk at ht
  rw [Bool.or_eq_true, Bool.or_eq_true] at ht
  rcases ht with (h1 | h1) | h1
  · exact Or.inl ((of_decide_eq_true h1).trans (by decide))
  · exact Or.inr (Or.inl ((of_decide_eq_true h1).trans (by decide)))
  · exact Or.inr (Or.inr ((of_decide_eq_true h1).trans (by decide)))

/-- The head outcome of the host-then-repo tail of the pattern, for each host
shape. -/
theorem hostRepo_head {h : HostSpec} {owner repo : List Char} {ref : Option (List Char)}
    (k : Caps) (hh : hostOk h = true) (ho : tokOk ownerChar owner = true)
    (hr : tokOk repoChar repo = true) (hf : refOk ref = true) :
    ((Regex.seq colab_assist.hostPart colab_assist.repoPart).run
        (buildHost h ++ (owner ++ '/' :: (repo ++ buildRef ref))) k).head?
      = some (setCap (match h with
          | .noHost => k
          | .tag t => setCap k 2 t
          | .dom d => setCap k 3 d) 4
          (owner ++ '/' :: (repo ++ buildRef ref)), []) := by
  cases h with
  | noHost =>
    rw [show buildHost HostSpec.noHost ++ (owner ++ '/' :: (repo ++ buildRef ref))
        = owner ++ '/' :: (repo ++ buildRef ref) from by simp [buildHost]]
    apply head?_flatMap (x := (k, owner ++ '/' :: (repo ++ buildRef ref)))
    · exact hostPart_head_none k ho
    · exact repoPart_head k ho hr hf
  | tag t =>
    rw [show buildHost (HostSpec.tag t) ++ (owner ++ '/' :: (repo ++ buildRef ref))
        = '$' :: (t ++ '/' :: (owner ++ '/' :: (repo ++ buildRef ref))) from by
      simp [buildHost]]
    apply head?_flatMap (x := (setCap k 2 t, owner ++ '/' :: (repo ++ buildRef ref)))
    · exact hostPart_head_tag k (hostOk_tag_cases hh)
    · exact repoPart_head (setCap k 2 t) ho hr hf
  | dom d =>
    rw [show buildHost (HostSpec.dom d) ++ (owner ++ '/' :: (repo ++ buildRef ref))
        = d ++ '/' :: (owner ++ '/' :: (repo ++ buildRef ref)) from by simp [buildHost]]
    apply head?_flatMap (x := (setCap k 3 d, owner ++ '/' :: (repo ++ buildRef ref)))
    · exact hostPart_head_dom k hh
    · exact repoPart_head (setCap k 3 d) ho hr hf

/-- The full pattern matches an assembled shorthand specifier and captures its
components: group 1 the auth token, group 2 the host tag, group 3 the host
domain name, group 4 the owner/repo@ref text. -/
theorem fullmatch_buildSpec {a : Option (List Char)} {h : HostSpec}
    {owner repo : List Char} {ref : Option (List Char)}
    (ha : authSpecOk a = true) (hh : hostOk h = true)
    (ho : tokOk ownerChar owner = true) (hr : tokOk repoChar repo = true)
    (hf : refOk ref = true) :
    ∃ K : Caps,
      fullmatch colab_assist.specPattern (buildSpec a h owner repo ref) = some K
      ∧ K 1 = a
      ∧ K 2 = (match h with | .tag t => some t | _ => none)
      ∧ K 3 = (match h with | .dom d => some d | _ => none)
      ∧ K 4 = some (owner ++ '/' :: (repo ++ buildRef ref)) := by
  have hRP1 : ∀ c ∈ owner, ¬ (c = '@') := by
    intro c hc hq
    subst hq
    exact absurd (tokOk_all ho '@' hc) (by decide)
  cases h with
  | noHost =>
    have hNAB : ∀ ts r',
        buildHost HostSpec.noHost ++ (owner ++ '/' :: (repo ++ buildRef ref))
          = ts ++ '@' :: r' → authOk ts = false := by
      intro ts r' he
      rw [show buildHost HostSpec.noHost ++ (owner ++ '/' :: (repo ++ buildRef ref))
          = owner ++ '/' :: (repo ++ buildRef ref) from by simp [buildHost]] at he
      exact noAuth_of_clean_prefix hRP1 ts r' he
    cases a with
    | none =>
      refine ⟨setCap noCaps 4 (owner ++ '/' :: (repo ++ buildRef ref)), ?_,
        by simp [setCap, noCaps], by simp [setCap, noCaps],
        by simp [setCap, noCaps], by simp [setCap]⟩
      apply firstFull_of_head
      rw [show buildSpec none HostSpec.noHost owner repo ref
          = buildHost HostSpec.noHost ++ (owner ++ '/' :: (repo ++ buildRef ref)) from by
        simp [buildSpec, buildAuth]]
      apply head?_flatMap (x := (noCaps,
        buildHost HostSpec.noHost ++ (owner ++ '/' :: (repo ++ buildRef ref))))
      · exact authPart_head_none noCaps hNAB
      · exact hostRepo_head noCaps hh ho hr hf
    | some a' =>
      have ha' : authOk a' = true := by simpa [authSpecOk] using ha
      refine ⟨setCap (setCap noCaps 1 a') 4 (owner ++ '/' :: (repo ++ buildRef ref)), ?_,
        by simp [setCap, noCaps], by simp [setCap, noCaps],
        by simp [setCap, noCaps], by simp [setCap]⟩
      apply firstFull_of_head
      rw [show buildSpec (some a') HostSpec.noHost owner repo ref
          = a' ++ '@' :: (buildHost HostSpec.noHost
            ++ (owner ++ '/' :: (repo ++ buildRef ref))) from by
        simp [buildSpec, buildAuth, buildHost]]
      apply head?_flatMap (x := (setCap noCaps 1 a',
        buildHost HostSpec.noHost ++ (owner ++ '/' :: (repo ++ buildRef ref))))
      · exact authPart_head_some noCaps ha'
      · exact hostRepo_head (setCap noCaps 1 a') hh ho hr hf
  | tag t =>
    have hts : ∀ c ∈ '$' :: t, ¬ (c = '@') := by
      rcases hostOk_tag_cases hh with rfl | rfl | rfl <;> decide
    have hNAB : ∀ ts r',
        buildHost (HostSpec.tag t) ++ (owner ++ '/' :: (repo ++ buildRef ref))
          = ts ++ '@' :: r' → authOk ts = false := by
      intro ts r' he
      rw [show buildHost (HostSpec.tag t) ++ (owner ++ '/' :: (repo ++ buildRef ref))
          = ('$' :: t) ++ '/' :: (owner ++ '/' :: (repo ++ buildRef ref)) from by
        simp [buildHost]] at he
      exact noAuth_of_clean_prefix hts ts r' he
    cases a with
    | none =>
      refine ⟨setCap (setCap noCaps 2 t) 4 (owner ++ '/' :: (repo ++ buildRef ref)), ?_,
        by simp [setCap, noCaps], by simp [setCap, noCaps],
        by simp [setCap, noCaps], by simp [setCap]⟩
      apply firstFull_of_head
      rw [show buildSpec none (HostSpec.tag t) owner repo ref
          = buildHost (HostSpec.tag t) ++ (owner ++ '/' :: (repo ++ buildRef ref)) from by
        simp [buildSpec, buildAuth]]
      apply head?_flatMap (x := (noCaps,
        buildHost (HostSpec.tag t) ++ (owner ++ '/' :: (repo ++ buildRef ref))))
      · exact authPart_head_none noCaps hNAB
      · exact hostRepo_head noCaps hh ho hr hf
    | some a' =>
      have ha' : authOk a' = true := by simpa [authSpecOk] using ha
      refine ⟨setCap (setCap (setCap noCaps 1 a') 2 t) 4
        (owner ++ '/' :: (repo ++ buildRef ref)), ?_,
        by simp [setCap, noCaps], by simp [setCap, noCaps],
        by simp [setCap, noCaps], by simp [setCap]⟩
      apply firstFull_of_head
      rw [show buildSpec (some a') (HostSpec.tag t) owner repo ref
          = a' ++ '@' :: (buildHost (HostSpec.tag t)
            ++ (owner ++ '/' :: (repo ++ buildRef ref))) from by
        simp [buildSpec, buildAuth]]
      apply head?_flatMap (x := (setCap noCaps 1 a',
        buildHost (HostSpec.tag t) ++ (owner ++ '/' :: (repo ++ buildRef ref))))
      · exact authPart_head_some noCaps ha'
      · exact hostRepo_head (setCap noCaps 1 a') hh ho hr hf
  | dom d =>
    have hNAB : ∀ ts r',
        buildHost (HostSpec.dom d) ++ (owner ++ '/' :: (repo ++ buildRef ref))
          = ts ++ '@' :: r' → authOk ts = false := by
      intro ts r' he
      rw [show buildHost (HostSpec.dom d) ++ (owner ++ '/' :: (repo ++ buildRef ref))
          = d ++ '/' :: (owner ++ '/' :: (repo ++ buildRef ref)) from by
        simp [buildHost]] at he
      exact noAuth_of_clean_prefix (dom_no_at hh) ts r' he
    cases a with
    | none =>
      refine ⟨setCap (setCap noCaps 3 d) 4 (owner ++ '/' :: (repo ++ buildRef ref)), ?_,
        by simp [setCap, noCaps], by simp [setCap, noCaps],
        by simp [setCap, noCaps], by simp [setCap]⟩
      apply firstFull_of_head
      rw [show buildSpec none (HostSpec.dom d) owner repo ref
          = buildHost (HostSpec.dom d) ++ (owner ++ '/' :: (repo ++ buildRef ref)) from by
        simp [buildSpec, buildAuth]]
      apply head?_flatMap (x := (noCaps,
        buildHost (HostSpec.dom d) ++ (owner ++ '/' :: (repo ++ buildRef ref))))
      · exact authPart_head_none noCaps hNAB
      · exact hostRepo_head noCaps hh ho hr hf
    | some a' =>
      have ha' : authOk a' = true := by simpa [authSpecOk] using ha
      refine ⟨setCap (setCap (setCap noCaps 1 a') 3 d) 4
        (owner ++ '/' :: (repo ++ buildRef ref)), ?_,
        by simp [setCap, noCaps], by simp [setCap, noCaps],
        by simp [setCap, noCaps], by simp [setCap]⟩
      apply firstFull_of_head
      rw [show buildSpec (some a') (HostSpec.dom d) owner repo ref
          = a' ++ '@' :: (buildHost (HostSpec.dom d)
            ++ (owner ++ '/' :: (repo ++ buildRef ref))) from by
        simp [buildSpec, buildAuth]]
      apply head?_flatMap (x := (setCap noCaps 1 a',
        buildHost (HostSpec.dom d) ++ (owner ++ '/' :: (repo ++ buildRef ref))))
      · exact authPart_head_some noCaps ha'
      · exact hostRepo_head (setCap noCaps 1 a') hh ho hr hf

/-- C1: for every package specifier of the shorthand form
`[auth@][host/]owner/repo[@ref]` with admissible components,
`_parse_package_spec` returns the fully qualified installable URL
`git+https://` followed by the resolved auth and `@` when the auth component
is nonempty, then the resolved host name (`$gh`/`$gl`/`$bb` map to their
domains, a given domain name is used as-is, and `github.com` is the default),
then `/owner/repo` and `@ref` when a ref is given. -/
theorem c1_parse_package_spec_shorthand (env : colab_assist.Env)
    (a : Option (List Char)) (h : HostSpec) (owner repo : List Char)
    (ref : Option (List Char))
    (ha : authSpecOk a = true) (hh : hostOk h = true)
    (ho : tokOk ownerChar owner = true) (hr : tokOk repoChar repo = true)
    (hf : refOk ref = true) :
    colab_assist._parse_package_spec env (buildSpec a h owner repo ref)
      = expectedUrl env a h owner repo ref := by
  cases h with
  | noHost =>
    obtain ⟨K, hK, h1, h2, h3, h4⟩ := fullmatch_buildSpec ha hh ho hr hf
    unfold colab_assist._parse_package_spec
    rw [hK]
    simp only [h1, h2, h3, h4, Option.getD_some]
    cases a with
    | none =>
      simp [expectedUrl, hostNameOf, colab_assist._HOST_NAMES, pyOrO, pyOrD]
    | some a' =>
      cases a' with
      | nil => simp [expectedUrl, hostNameOf, colab_assist._HOST_NAMES, pyOrO, pyOrD]
      | cons c t' => simp [expectedUrl, hostNameOf, colab_assist._HOST_NAMES, pyOrO, pyOrD]
  | tag t =>
    rcases hostOk_tag_cases hh with rfl | rfl | rfl <;>
    · obtain ⟨K, hK, h1, h2, h3, h4⟩ := fullmatch_buildSpec ha hh ho hr hf
      unfold colab_assist._parse_package_spec
      rw [hK]
      simp only [h1, h2, h3, h4, Option.getD_some]
      cases a with
      | none =>
        simp [expectedUrl, hostNameOf, colab_assist._HOST_NAMES, pyOrO, pyOrD]
      | some a' =>
        cases a' with
        | nil => simp [expectedUrl, hostNameOf, colab_assist._HOST_NAMES, pyOrO, pyOrD]
        | cons c t' =>
          simp [expectedUrl, hostNameOf, colab_assist._HOST_NAMES, pyOrO, pyOrD]
  | dom d =>
    obtain ⟨K, hK, h1, h2, h3, h4⟩ := fullmatch_buildSpec ha hh ho hr hf
    unfold colab_assist._parse_package_spec
    rw [hK]
    simp only [h1, h2, h3, h4, Option.getD_some]
    have hde : d.isEmpty = false := by
      cases hd : d with
      | nil => exact absurd hd (dom_ne_nil hh)
      | cons x xs => rfl
    cases a with
    | none =>
      simp [expectedUrl, hostNameOf, colab_assist._HOST_NAMES, pyOrO, pyOrD, hde]
    | some a' =>
      cases a' with
      | nil => simp [expectedUrl, hostNameOf, colab_assist._HOST_NAMES, pyOrO, pyOrD, hde]
      | cons c t' =>
        simp [expectedUrl, hostNameOf, colab_assist._HOST_NAMES, pyOrO, pyOrD, hde]

/-- Witness for C1: the concrete specifier `$tok@$gl/own/re.po@v1.2`. -/
theorem c1_witness :
    authSpecOk (some "$tok".data) = true
    ∧ hostOk (.tag "gl".data) = true
    ∧ tokOk ownerChar "own".data = true
    ∧ tokOk repoChar "re.po".data = true
    ∧ refOk (some "v1.2".data) = true
    ∧ colab_assist._parse_package_spec envW
        (buildSpec (some "$tok".data) (.tag "gl".data) "own".data "re.po".data
          (some "v1.2".data))
      = expectedUrl envW (some "$tok".data) (.tag "gl".data) "own".data "re.po".data
          (some "v1.2".data) :=
  ⟨by decide, by decide, by decide, by decide, by decide,
    c1_parse_package_spec_shorthand envW (some "$tok".data) (.tag "gl".data)
      "own".data "re.po".data (some "v1.2".data)
      (by decide) (by decide) (by decide) (by decide) (by decide)⟩

/-- C9: on any input string that the shorthand pattern does not fully match,
`_parse_package_spec` is the identity. -/
theorem c9_parse_identity_on_nonmatch (env : colab_assist.Env) (spec : List Char)
    (h : (fullmatch colab_assist.specPattern spec).isNone = true) :
    colab_assist._parse_package_spec env spec = spec := by
  unfold colab_assist._parse_package_spec
  cases hm : fullmatch colab_assist.specPattern spec with
  | none => rfl
  | some K =>
    rw [hm] at h
    simp at h

/-- Witness for C9: the ordinary uv specifier `duckdb` is not a shorthand and
passes through unchanged. -/
theorem c9_witness :
    (fullmatch colab_assist.specPattern "duckdb".data).isNone = true
    ∧ colab_assist._parse_package_spec envW "duckdb".data = "duckdb".data :=
  ⟨by decide, c9_parse_identity_on_nonmatch envW "duckdb".data (by decide)⟩

/-! ## Lemmas: trace observations -/

/-- Unfolding `spawnCount` over a cons cell. -/
theorem spawnCount_cons (e : Ev) (l : List Ev) :
    spawnCount (e :: l) = spawnCount l + (if isSpawn e then 1 else 0) := by
  simp [spawnCount, List.countP_cons]

/-- The error tail prints exactly the message of a failed outcome. -/
theorem errEvs_of_errMsg {res : RunRes} {m : List Char} (h : errMsg res = some m) :
    errEvs res = [.printEv m] := by
  cases res with
  | timeoutExpired s =>
    simp only [errMsg] at h
    injection h with h1
    simp only [errEvs, h1]
  | completed rc err =>
    simp only [errMsg] at h
    by_cases hrc : rc = 0
    · rw [if_neg (not_not_intro hrc)] at h
      exact Option.noConfusion h
    · rw [if_pos hrc] at h
      injection h with h1
      simp only [errEvs]
      rw [if_pos hrc, h1]

/-- The error tail spawns nothing. -/
theorem spawnCount_errEvs (res : RunRes) : spawnCount (errEvs res) = 0 := by
  cases res with
  | timeoutExpired m => simp [errEvs, spawnCount, isSpawn]
  | completed rc err =>
    unfold errEvs
    by_cases h : rc = 0
    · simp [h, spawnCount]
    · simp [h, spawnCount, isSpawn]

/-- `update_uv` spawns at most one subprocess. -/
theorem spawnCount_update_uv (u : Bool) (res : RunRes) :
    spawnCount (colab_utils.update_uv u res).1 ≤ 1 := by
  cases u with
  | true => simp [colab_utils.update_uv, spawnCount]
  | false =>
    cases res with
    | timeoutExpired m =>
      simp [colab_utils.update_uv, spawnCount, isSpawn, List.countP_cons]
    | completed rc err =>
      unfold colab_utils.update_uv
      by_cases h : rc = 0 <;>
        simp [h, spawnCount, isSpawn, List.countP_cons]

/-- The install subprocess of `sync_gh` is spawned exactly once. -/
theorem spawnCount_syncSpawn (env : colab_utils.CuEnv) (a : Option (List Char))
    (ow rp : List Char) (br : Option (List Char)) (res : RunRes) :
    spawnCount (colab_utils.syncSpawn env a ow rp br res) ≤ 1 := by
  unfold colab_utils.syncSpawn
  simp [spawnCount_cons, spawnCount_errEvs, isSpawn]

/-- The install part of `sync_gh` is one spawn followed by the standard error
tail, and on a failed outcome it is exactly the spawn and the error print. -/
theorem syncSpawn_shape (env : colab_utils.CuEnv) (a : Option (List Char))
    (ow rp : List Char) (br : Option (List Char)) (res : RunRes) :
    ∃ c, colab_utils.syncSpawn env a ow rp br res = Ev.spawn c :: errEvs res
      ∧ ∀ m, errMsg res = some m →
          colab_utils.syncSpawn env a ow rp br res = [Ev.spawn c, Ev.printEv m] := by
  refine ⟨["uv".data, "pip".data, "install".data, "--system".data, "-Uq".data]
      ++ [env.shlexQuote ((if pyTruthyO a then
          "git+https://".data ++ a.getD [] ++ "@github.com/".data
        else "git+https://github.com/".data)
        ++ (if pyTruthyO br then ow ++ '/' :: rp ++ '@' :: br.getD []
          else ow ++ '/' :: rp))], rfl, ?_⟩
  intro m hm
  show Ev.spawn _ :: errEvs res = _
  rw [errEvs_of_errMsg hm]

/-- C2 (code bug): `clone_gh` on a fresh destination raises before any `git
clone` subprocess is spawned — with no explicit `auth`, the guard evaluates
`_get_auth(secret, "q" not in opt)` although `_get_auth` takes one argument,
raising `TypeError`; the trace is empty and the return is an exception rather
than `None`. -/
theorem c2_clone_gh_raises :
    colab_assist.clone_gh (fun _ => false) "octo/hello".data none none
      = ([], some (.typeError
          "_get_auth() takes 1 positional argument but 2 were given".data)) := by
  decide

/-- C3: every `restart()` call performs the state save strictly before asking
the shell to exit (or printing the fallback message), and the module
initialization of the next session begins by restoring the saved state. -/
theorem c3_restart_save_restore (b : Bool) :
    colab_assist.restart b
      = Ev.saveState :: (if b then [Ev.askExit]
          else [Ev.printEv colab_assist.restartFallbackMsg])
    ∧ colab_assist.moduleInit.head? = some Ev.loadState :=
  ⟨rfl, rfl⟩

/-- C4: `download` writes the body chunks to the given or inferred destination
and returns that path exactly when the status is 200 and a destination is
determined (explicit path, Content-Disposition header, or URL basename); on a
non-200 status, or when no path is given and neither header nor basename
yields a name, it returns `None` and writes no file. -/
theorem c4_download_streamed (env : colab_assist.DlEnv) (url : List Char)
    (path : Option (List Char)) :
    (env.resp.status ≠ 200 →
      (colab_assist.download env url path).1 = none
      ∧ ∀ p c, Ev.writeFile p c ∉ (colab_assist.download env url path).2)
    ∧ (env.resp.status = 200 → ∀ p, path = some p →
      colab_assist.download env url path = (some p, [.writeFile p env.resp.chunks]))
    ∧ (env.resp.status = 200 → path = none →
      ∀ h, env.resp.contentDisposition = some h → h ≠ [] →
      colab_assist.download env url path
        = (some (env.cwd ++ '/' :: colab_assist.pyFStr (env.getFilename h)),
            [.writeFile (env.cwd ++ '/' :: colab_assist.pyFStr (env.getFilename h))
              env.resp.chunks]))
    ∧ (env.resp.status = 200 → path = none →
      pyTruthyO env.resp.contentDisposition = false →
      env.urlPathBasename url ≠ [] →
      colab_assist.download env url path
        = (some (env.cwd ++ '/' :: env.urlPathBasename url),
            [.writeFile (env.cwd ++ '/' :: env.urlPathBasename url) env.resp.chunks]))
    ∧ (env.resp.status = 200 → path = none →
      pyTruthyO env.resp.contentDisposition = false →
      env.urlPathBasename url = [] →
      (colab_assist.download env url path).1 = none
      ∧ ∀ p c, Ev.writeFile p c ∉ (colab_assist.download env url path).2) := by
  refine ⟨?_, ?_, ?_, ?_, ?_⟩
  · intro hs
    unfold colab_assist.download
    rw [if_pos hs]
    exact ⟨rfl, by intro p c hc; simp at hc⟩
  · intro hs p hp
    subst hp
    unfold colab_assist.download
    rw [if_neg (by simp [hs])]
  · intro hs hp h hcd hne
    subst hp
    unfold colab_assist.download
    rw [if_neg (by simp [hs]), hcd]
    simp [hne]
  · intro hs hp hcd hbe
    subst hp
    have hg : env.resp.contentDisposition.getD [] = [] := by
      cases hcdo : env.resp.contentDisposition with
      | none => rfl
      | some s =>
        rw [hcdo] at hcd
        simp only [pyTruthyO, Bool.not_eq_false'] at hcd
        simp [List.isEmpty_iff.mp hcd]
    unfold colab_assist.download
    rw [if_neg (by simp [hs])]
    simp [hg, hbe]
  · intro hs hp hcd hbe
    subst hp
    have hg : env.resp.contentDisposition.getD [] = [] := by
      cases hcdo : env.resp.contentDisposition with
      | none => rfl
      | some s =>
        rw [hcdo] at hcd
        simp only [pyTruthyO, Bool.not_eq_false'] at hcd
        simp [List.isEmpty_iff.mp hcd]
    unfold colab_assist.download
    rw [if_neg (by simp [hs])]
    simp [hg, hbe]

/-- Witness for C4: a 200 response with no Content-Disposition header and a
URL with basename `f.bin` downloads to the working directory. -/
theorem c4_witness :
    colab_assist.download dlEnvW "http://x/f.bin".data none
      = (some "/content/f.bin".data,
          [Ev.writeFile "/content/f.bin".data [[1, 2], [3]]]) := by
  have h := (c4_download_streamed dlEnvW "http://x/f.bin".data none).2.2.2.1
    rfl rfl (by decide) (by decide)
  exact h.trans (by decide)

/-- C5: `update_git` leaves the `_colab._git_updated` guard unchanged in every
branch (the success branch assigns a local variable instead), so the flag
stays false over any sequence of calls and each call with the flag false
re-spawns the APT update subprocess. -/
theorem c5_update_git_flag_frame :
    (∀ (f : Bool) (res : RunRes), (colab_assist.update_git f res).2 = f)
    ∧ (∀ ress : List RunRes,
        ress.foldl (fun f res => (colab_assist.update_git f res).2) false = false)
    ∧ (∀ (f : Bool) (res : RunRes), f = false →
        Ev.spawnShell colab_assist.aptCmd ∈ (colab_assist.update_git f res).1) := by
  have h1 : ∀ (f : Bool) (res : RunRes), (colab_assist.update_git f res).2 = f := by
    intro f res
    unfold colab_assist.update_git
    cases f <;> simp
  refine ⟨h1, ?_, ?_⟩
  · intro ress
    induction ress with
    | nil => rfl
    | cons r rs ih =>
      rw [List.foldl_cons, h1 false r]
      exact ih
  · intro f res hf
    subst hf
    unfold colab_assist.update_git
    simp

/-- Witness for C5: a successful APT run leaves the flag false, after having
spawned the subprocess. -/
theorem c5_witness :
    (colab_assist.update_git false (.completed 0 [])).2 = false
    ∧ Ev.spawnShell colab_assist.aptCmd
        ∈ (colab_assist.update_git false (.completed 0 [])).1 :=
  ⟨c5_update_git_flag_frame.1 false (.completed 0 []),
    c5_update_git_flag_frame.2.2 false (.completed 0 []) rfl⟩

/-- C7: `end` removes the cloned-repositories directory (ignoring errors),
then flushes and unmounts the drive, then unassigns the runtime, in exactly
that order and nothing else. -/
theorem c7_end_cleanup_order :
    colab_assist.end' = [Ev.rmtreeEv "/content/repos/".data true,
      Ev.flushAndUnmount, Ev.runtimeUnassign] := rfl

/-- C8: `mount` calls the drive-mount API exactly once with the fixed
mountpoint `/content/drive/` and the given force flag, and `unmount` calls
the flush-and-unmount API exactly once; neither performs any other action. -/
theorem c8_mount_unmount (force : Bool) :
    colab_assist.mount force = [Ev.driveMount "/content/drive/".data force]
    ∧ colab_assist.unmount = [Ev.flushAndUnmount] :=
  ⟨rfl, rfl⟩

/-- C10 counterexample: `colab_utils.install` with zero packages and the uv
flag unset spawns the uv self-update subprocess and sets `_uv_updated`, so the
call is not a no-op. -/
theorem c10_counterexample :
    colab_utils.install cuEnvW false (.completed 0 []) [] (.completed 0 [])
      ≠ ([], false) := by
  decide

/-- C10 (amended): `colab_assist.install` with zero packages is a no-op;
`colab_utils.install` with zero packages spawns no install subprocess and
performs exactly the effects of the preceding `update_uv()` call, and is a
complete no-op when `_uv_updated` is already set. -/
theorem c10_install_no_packages (env : colab_assist.Env) (o : List Char)
    (res : RunRes) (cu : colab_utils.CuEnv) (u : Bool) (uvRes mainRes : RunRes) :
    colab_assist.install env [] o res = []
    ∧ colab_utils.install cu u uvRes [] mainRes = colab_utils.update_uv u uvRes
    ∧ colab_utils.install cu true uvRes [] mainRes = ([], true) := by
  refine ⟨rfl, ?_, ?_⟩
  · unfold colab_utils.install
    simp
  · unfold colab_utils.install colab_utils.update_uv
    simp

/-- C6: no retry/backoff — each shell-out helper spawns its external command
at most once per call (the broken `clone_gh` spawns none at all), and on a
timeout or nonzero exit status the error is printed and no re-run happens
within the call; for the colab_utils helpers the trace splits into the
`update_uv` part and the own part of the helper, each spawning at most once,
and the own part of `sync_gh` is either the printed Colab-Secret lookup error
(no install subprocess is spawned at all on that path) or exactly one spawn
which, on timeout or nonzero exit, is followed by exactly the error print. -/
theorem c6_no_retry :
    (∀ (env : colab_assist.Env) (pkgs : List (List Char)) (o : List Char)
        (res : RunRes),
      spawnCount (colab_assist.install env pkgs o res) ≤ 1
      ∧ (∀ m, errMsg res = some m → pkgs.isEmpty = false →
          ∃ c, colab_assist.install env pkgs o res = [.spawn c, .printEv m]))
    ∧ (∀ (f : List Char → Bool) (repo : List Char) (dn a : Option (List Char)),
        spawnCount (colab_assist.clone_gh f repo dn a).1 = 0)
    ∧ (∀ (f : List Char → Bool) (dn : List Char) (res : RunRes),
        spawnCount (colab_assist.pull_gh f dn res) ≤ 1
        ∧ (∀ m, errMsg res = some m →
            f (pyJoin colab_assist._REPOS_ROOT dn) = true →
            colab_assist.pull_gh f dn res
              = [.spawn ["git".data, "pull".data], .printEv m]))
    ∧ (∀ (g : Bool) (res : RunRes),
        spawnCount (colab_assist.update_git g res).1 ≤ 1
        ∧ (∀ m, errMsg res = some m → g = false →
            (colab_assist.update_git g res).1
              = [.spawnShell colab_assist.aptCmd, .printEv m]))
    ∧ (∀ (env : colab_utils.CuEnv) (u : Bool) (uvRes : RunRes) (ow rp : List Char)
        (br secret auth : Option (List Char)) (pr : Bool) (res : RunRes),
        ∃ rest, (colab_utils.sync_gh env u uvRes ow rp br secret auth pr res).1
            = (colab_utils.update_uv u uvRes).1 ++ rest
          ∧ spawnCount (colab_utils.update_uv u uvRes).1 ≤ 1
          ∧ spawnCount rest ≤ 1
          ∧ ((∃ e, pyTruthyO secret = true
                ∧ env.userdataGet (secret.getD []) = .error e
                ∧ rest = [.printEv e])
            ∨ (∃ c, rest = .spawn c :: errEvs res
                ∧ ∀ m, errMsg res = some m → rest = [.spawn c, .printEv m])))
    ∧ (∀ (env : colab_utils.CuEnv) (u : Bool) (uvRes : RunRes)
        (pkgs : List (List Char)) (res : RunRes),
        ∃ rest, (colab_utils.install env u uvRes pkgs res).1
            = (colab_utils.update_uv u uvRes).1 ++ rest
          ∧ spawnCount (colab_utils.update_uv u uvRes).1 ≤ 1
          ∧ spawnCount rest ≤ 1
          ∧ (∀ m, errMsg res = some m → pkgs.isEmpty = false →
              ∃ c, rest = [.spawn c, .printEv m])) := by
  refine ⟨?_, ?_, ?_, ?_, ?_, ?_⟩
  · intro env pkgs o res
    constructor
    · unfold colab_assist.install
      cases hp : pkgs.isEmpty with
      | true => simp [spawnCount]
      | false => simp [spawnCount_cons, spawnCount_errEvs, isSpawn]
    · intro m hm hp
      refine ⟨["uv".data, "pip".data, "install".data, "--system".data]
          ++ env.shlexSplit o ++ ["--".data]
          ++ pkgs.map (colab_assist._parse_package_spec env), ?_⟩
      unfold colab_assist.install
      rw [if_neg (by simp [hp]), errEvs_of_errMsg hm]
  · intro f repo dn a
    unfold colab_assist.clone_gh
    rcases hs : splitOnChar '/' repo with _ | ⟨x, _ | ⟨y, _ | ⟨z, zs⟩⟩⟩
    · rfl
    · rfl
    · by_cases he : f (pyJoin colab_assist._REPOS_ROOT (pyOrD dn y)) = true
      · simp [he, spawnCount, isSpawn]
      · cases ha : pyTruthyO a <;>
          simp [he, ha, spawnCount, isSpawn]
    · rfl
  · intro f dn res
    constructor
    · unfold colab_assist.pull_gh
      cases hd : f (pyJoin colab_assist._REPOS_ROOT dn) with
      | false => simp [hd, spawnCount, isSpawn]
      | true => simp [hd, spawnCount_cons, spawnCount_errEvs, isSpawn]
    · intro m hm hdir
      unfold colab_assist.pull_gh
      simp [hdir, errEvs_of_errMsg hm]
  · intro g res
    constructor
    · unfold colab_assist.update_git
      cases g with
      | true => simp [spawnCount]
      | false => simp [spawnCount_cons, spawnCount_errEvs, isSpawn]
    · intro m hm hg
      subst hg
      unfold colab_assist.update_git
      simp [errEvs_of_errMsg hm]
  · intro env u uvRes ow rp br secret auth pr res
    unfold colab_utils.sync_gh
    by_cases hsec : pyTruthyO secret = true
    · rw [if_pos hsec]
      cases hud : env.userdataGet (secret.getD []) with
      | error e =>
        exact ⟨[.printEv e], by simp [hud], spawnCount_update_uv u uvRes,
          by simp [spawnCount, isSpawn], Or.inl ⟨e, hsec, rfl, rfl⟩⟩
      | ok a2 =>
        exact ⟨colab_utils.syncSpawn env (some a2) ow rp br res, by simp [hud],
          spawnCount_update_uv u uvRes,
          spawnCount_syncSpawn env (some a2) ow rp br res,
          Or.inr (syncSpawn_shape env (some a2) ow rp br res)⟩
    · rw [if_neg hsec]
      by_cases hpa : (!pyTruthyO auth && pr) = true
      · rw [if_pos hpa]
        exact ⟨colab_utils.syncSpawn env (some env.getpassInput) ow rp br res, rfl,
          spawnCount_update_uv u uvRes,
          spawnCount_syncSpawn env (some env.getpassInput) ow rp br res,
          Or.inr (syncSpawn_shape env (some env.getpassInput) ow rp br res)⟩
      · rw [if_neg hpa]
        exact ⟨colab_utils.syncSpawn env auth ow rp br res, rfl,
          spawnCount_update_uv u uvRes,
          spawnCount_syncSpawn env auth ow rp br res,
          Or.inr (syncSpawn_shape env auth ow rp br res)⟩
  · intro env u uvRes pkgs res
    unfold colab_utils.install
    cases hp : pkgs.isEmpty with
    | true =>
      refine ⟨[], by simp, spawnCount_update_uv u uvRes, by simp [spawnCount], ?_⟩
      intro m hm hpf
      exact Bool.noConfusion hpf
    | false =>
      refine ⟨Ev.spawn (env.shlexSplit ("uv pip install --system -q ".data
          ++ List.intercalate [' '] (pkgs.map env.shlexQuote))) :: errEvs res,
        by simp, spawnCount_update_uv u uvRes, ?_, ?_⟩
      · simp [spawnCount_cons, spawnCount_errEvs, isSpawn]
      · intro m hm hpf
        exact ⟨_, by rw [errEvs_of_errMsg hm]⟩

/-- Witness for C6: a timed-out `update_git` call spawns once and prints the
timeout message, with no re-run. -/
theorem c6_witness :
    spawnCount (colab_assist.update_git false (.timeoutExpired "t".data)).1 ≤ 1
    ∧ (colab_assist.update_git false (.timeoutExpired "t".data)).1
        = [Ev.spawnShell colab_assist.aptCmd, Ev.printEv "t".data] :=
  ⟨(c6_no_retry.2.2.2.1 false (.timeoutExpired "t".data)).1,
    (c6_no_retry.2.2.2.1 false (.timeoutExpired "t".data)).2 "t".data rfl rfl⟩
